import Mathlib

/-!
Verification of the kv-server repository: a sharded LRU cache
(`internal/cache/cache.go`) behind a cache-aside HTTP coordinator
(`internal/server/handler.go`) over a Postgres store
(`internal/database`, provided as an unnamed source part).

The Go code is shallowly embedded.  A `container/list` element is a heap
cell addressed by a numeric id: the Go map `cache : map[string]*list.Element`
becomes an association list from keys to ids, the list `lru` becomes the
list of ids in front-to-back order, and the cells themselves live in a
`heap` association list from ids to entries.  Fresh ids come from a
`nextId` counter.  Go's `int` is embedded as `Int` and `uint64` arithmetic
is taken modulo `2 ^ 64`.
-/

namespace KV

/-- The `entry` struct of cache.go: a key/value pair stored in a list element. -/
structure Entry where
  key : String
  value : String
deriving Repr, DecidableEq

/-- State of `LRUCache` (identically of `lruShard`): capacity, the
key-to-element map, the recency list of element ids (front first), the
heap of allocated list elements, the id allocator and the counters. -/
structure LRUCache where
  capacity : Int
  cache : List (String × Nat)
  lru : List Nat
  heap : List (Nat × Entry)
  nextId : Nat
  hits : Nat
  misses : Nat
deriving Repr, DecidableEq

/-- Go map read `m[k]`: the id the map holds for `k`, if any. -/
def mapLookup : List (String × Nat) → String → Option Nat
  | [], _ => none
  | p :: t, k => if p.1 = k then some p.2 else mapLookup t k

/-- Go map `delete(m, k)`. -/
def mapErase (m : List (String × Nat)) (k : String) : List (String × Nat) :=
  m.filter (fun p => p.1 ≠ k)

/-- Go map write `m[k] = id` (overwrites any previous binding). -/
def mapInsert (m : List (String × Nat)) (k : String) (id : Nat) :
    List (String × Nat) :=
  (k, id) :: mapErase m k

/-- Dereference a list element: `elem.Value.(*entry)`.  A valid pointer
always dereferences; unallocated ids (which never occur in reachable
states) give a dummy entry. -/
def heapVal : List (Nat × Entry) → Nat → Entry
  | [], _ => ⟨"", ""⟩
  | p :: t, id => if p.1 = id then p.2 else heapVal t id

/-- In-place mutation `elem.Value.(*entry).value = v` of the cell `id`. -/
def heapSetVal (h : List (Nat × Entry)) (id : Nat) (v : String) :
    List (Nat × Entry) :=
  h.map (fun p => if p.1 = id then (p.1, ⟨p.2.key, v⟩) else p)

/-- `list.MoveToFront(elem)`: if the element is in the list, move it to
the front; otherwise (element not owned by the list) no-op. -/
def moveToFront (l : List Nat) (id : Nat) : List Nat :=
  if id ∈ l then id :: l.erase id else l

/-- `NewLRUCache(capacity)`. -/
def NewLRUCache (capacity : Int) : LRUCache :=
  { capacity := capacity, cache := [], lru := [], heap := [],
    nextId := 0, hits := 0, misses := 0 }

/-- `LRUCache.Get`: on hit move the element to the front, bump `hits`
and return the value; on miss bump `misses` and return `("", false)`. -/
def LRUCache.Get (c : LRUCache) (key : String) :
    (String × Bool) × LRUCache :=
  match mapLookup c.cache key with
  | some id =>
      (((heapVal c.heap id).value, true),
        { c with lru := moveToFront c.lru id, hits := c.hits + 1 })
  | none =>
      (("", false), { c with misses := c.misses + 1 })

/-- `LRUCache.Put`: update-in-place on an existing key; otherwise evict
the back element when `lru.Len() >= capacity` (skipping when the list is
empty), then push a fresh element to the front and bind it in the map. -/
def LRUCache.Put (c : LRUCache) (key value : String) : LRUCache :=
  match mapLookup c.cache key with
  | some id =>
      { c with lru := moveToFront c.lru id,
               heap := heapSetVal c.heap id value }
  | none =>
      let c1 :=
        if (c.lru.length : Int) ≥ c.capacity then
          match c.lru.getLast? with
          | some oldest =>
              { c with lru := c.lru.erase oldest,
                       cache := mapErase c.cache (heapVal c.heap oldest).key }
          | none => c
        else c
      { c1 with lru := c1.nextId :: c1.lru,
                heap := (c1.nextId, ⟨key, value⟩) :: c1.heap,
                cache := mapInsert c1.cache key c1.nextId,
                nextId := c1.nextId + 1 }

/-- `LRUCache.Delete`: if the key is bound, remove the element from the
list and the key from the map; otherwise no-op. -/
def LRUCache.Delete (c : LRUCache) (key : String) : LRUCache :=
  match mapLookup c.cache key with
  | some id =>
      { c with lru := c.lru.erase id, cache := mapErase c.cache key }
  | none => c

/-- `LRUCache.GetStats`. -/
def LRUCache.GetStats (c : LRUCache) : Nat × Nat :=
  (c.hits, c.misses)

/-- A generic partition operation, for quantifying over operation
sequences. -/
inductive Op where
  | put (key value : String)
  | get (key : String)
  | del (key : String)
deriving Repr, DecidableEq

/-- Apply one operation to a partition. -/
def applyOp (c : LRUCache) : Op → LRUCache
  | .put k v => c.Put k v
  | .get k => (c.Get k).2
  | .del k => c.Delete k

/-- Apply a sequence of operations front to back. -/
def applyOps (c : LRUCache) (ops : List Op) : LRUCache :=
  ops.foldl applyOp c

/-- Apply a sequence of `Put` operations front to back. -/
def applyPuts (c : LRUCache) (ops : List (String × String)) : LRUCache :=
  ops.foldl (fun c p => c.Put p.1 p.2) c

/-- The state reached by `put(a,1)`, `put(b,2)`, `get(a)`, `put(c,3)` on
a fresh partition of capacity 2. -/
def scenarioState : LRUCache :=
  (((((NewLRUCache 2).Put "a" "1").Put "b" "2").Get "a").2).Put "c" "3"

/-! ### The sharded cache

`lruShard` of the second source part has exactly the fields of `LRUCache`
and its `Get`/`Put`/`Delete` bodies are character-identical to
`LRUCache`'s, so the `LRUCache` embedding above serves for both. -/

/-- `SHARD_COUNT = 32`. -/
def SHARD_COUNT : Nat := 32

/-- `ShardedCache`: the fixed array of shards. -/
structure ShardedCache where
  shards : List LRUCache
deriving Repr, DecidableEq

/-- `NewShardedCache(totalCapacity)`: divide the capacity by the shard
count with Go's truncating `int` division, clamp below at 1, and create
`SHARD_COUNT` shards of that capacity. -/
def NewShardedCache (totalCapacity : Int) : ShardedCache :=
  let shardCap := totalCapacity.tdiv (SHARD_COUNT : Int)
  let shardCap := if shardCap < 1 then 1 else shardCap
  ⟨List.replicate SHARD_COUNT (NewLRUCache shardCap)⟩

/-- The per-shard capacity the spec asserts, following the spec's words:
`⌈total capacity / shard count⌉ (minimum 1)`, i.e. ceiling division of
the requested total by the shard count, clamped below at 1.  Kept
separate from `NewShardedCache` (the code) to compare the two. -/
def specCeilShardCap (totalCapacity : Int) : Int :=
  max 1 ⌈(totalCapacity : ℚ) / (SHARD_COUNT : ℚ)⌉

/-- The bytes of a key, as naturals below 256. -/
def strBytes (s : String) : List Nat :=
  s.toUTF8.toList.map (·.toNat)

/-- The FNV-1a `hash` of cache.go over the key's bytes, with `uint64`
wrap-around arithmetic. -/
def hash (key : String) : Nat :=
  (strBytes key).foldl
    (fun h b => ((h ^^^ b) * 1099511628211) % 2 ^ 64)
    14695981039346656037

/-- The shard index computed by `getShard`: `h & (SHARD_COUNT - 1)`. -/
def getShardIndex (key : String) : Nat :=
  hash key &&& (SHARD_COUNT - 1)

/-! ### The coordinator (`internal/server/handler.go`)

The handlers are embedded from the point where the HTTP request has been
parsed into a key (and value).  The Postgres store is external I/O, so
each handler takes the outcome of its single store call as an argument;
`pgRead` and `pgDelete` below embed how `internal/database` turns raw
SQL outcomes into those results. -/

/-- A store call outcome: the Go `error`, with the store's
`key not found` error distinguished from every other failure. -/
inductive DBErr where
  | notFound
  | failure (msg : String)
deriving Repr, DecidableEq

/-- `PostgresDB.Read`: a returned row yields the value, `sql.ErrNoRows`
becomes the `key not found` error, and any other query error is
propagated unchanged. -/
inductive SQLReadResult where
  | row (value : String)
  | noRows
  | queryFailure (msg : String)
deriving Repr, DecidableEq

def pgRead : SQLReadResult → Except DBErr String
  | .row v => .ok v
  | .noRows => .error .notFound
  | .queryFailure m => .error (.failure m)

/-- `PostgresDB.Delete`: an exec/RowsAffected error is propagated
unchanged; zero rows affected becomes the `key not found` error. -/
def pgDelete : Except String Nat → Except DBErr Unit
  | .error m => .error (.failure m)
  | .ok rows => if rows = 0 then .error .notFound else .ok ()

/-- The JSON `Response` together with the HTTP status it is sent with. -/
structure Resp where
  status : Nat
  success : Bool
  value : String
  error : String
deriving Repr, DecidableEq

def sendSuccess (value : String) (status : Nat) : Resp :=
  ⟨status, true, value, ""⟩

def sendError (errMsg : String) (status : Nat) : Resp :=
  ⟨status, false, "", errMsg⟩

/-- The `KVServer` state the handlers mutate: its cache. -/
structure KVServer where
  cache : LRUCache
deriving Repr, DecidableEq

def NewKVServer (cacheSize : Int) : KVServer :=
  ⟨NewLRUCache cacheSize⟩

/-- `handleCreate`: store first; only on store success put into the
cache. -/
def KVServer.handleCreate (s : KVServer) (key value : String)
    (dbCreate : Except DBErr Unit) : Resp × KVServer :=
  if key = "" then (sendError "key is required" 400, s)
  else
    match dbCreate with
    | .error _ => (sendError "database error" 500, s)
    | .ok _ => (sendSuccess "" 201, ⟨s.cache.Put key value⟩)

/-- `handleRead`: cache first; on a miss consult the store, report any
store error as `key not found`/404, and populate the cache on success.
The `Bool` records whether the store was consulted. -/
def KVServer.handleRead (s : KVServer) (key : String)
    (dbRead : Except DBErr String) : Resp × KVServer × Bool :=
  if key = "" then (sendError "key is required" 400, s, false)
  else
    match s.cache.Get key with
    | ((v, true), c1) => (sendSuccess v 200, ⟨c1⟩, false)
    | ((_, false), c1) =>
      match dbRead with
      | .error _ => (sendError "key not found" 404, ⟨c1⟩, true)
      | .ok v => (sendSuccess v 200, ⟨c1.Put key v⟩, true)

/-- `handleDelete`: store delete first; on any store error report
`key not found`/404 and leave the cache alone, else delete from the
cache. -/
def KVServer.handleDelete (s : KVServer) (key : String)
    (dbDelete : Except DBErr Unit) : Resp × KVServer :=
  if key = "" then (sendError "key is required" 400, s)
  else
    match dbDelete with
    | .error _ => (sendError "key not found" 404, s)
    | .ok _ => (sendSuccess "" 200, ⟨s.cache.Delete key⟩)

/-! ### Association-map, heap and move-to-front lemmas -/

theorem mapErase_cons (p : String × Nat) (t : List (String × Nat))
    (k : String) :
    mapErase (p :: t) k =
      if p.1 = k then mapErase t k else p :: mapErase t k := by
  by_cases hp : p.1 = k <;> simp [mapErase, List.filter_cons, hp]

theorem heapSetVal_cons (p : Nat × Entry) (t : List (Nat × Entry))
    (id : Nat) (v : String) :
    heapSetVal (p :: t) id v =
      (if p.1 = id then (p.1, ⟨p.2.key, v⟩) else p) :: heapSetVal t id v := by
  by_cases hp : p.1 = id <;> simp [heapSetVal, hp]

theorem mapLookup_eq_none {m : List (String × Nat)} {k : String} :
    mapLookup m k = none ↔ k ∉ m.map Prod.fst := by
  induction m with
  | nil => simp [mapLookup]
  | cons p t ih =>
    by_cases h : p.1 = k
    · subst h
      simp [mapLookup]
    · have h' : ¬k = p.1 := fun e => h e.symm
      simp [mapLookup, h, h', ih]

theorem mapLookup_mem {m : List (String × Nat)} {k : String} {id : Nat}
    (h : mapLookup m k = some id) : (k, id) ∈ m := by
  induction m with
  | nil => simp [mapLookup] at h
  | cons p t ih =>
    by_cases hp : p.1 = k
    · simp [mapLookup, hp] at h
      subst hp; subst h
      simp
    · simp [mapLookup, hp] at h
      exact List.mem_cons_of_mem _ (ih h)

theorem mapLookup_erase_self (m : List (String × Nat)) (k : String) :
    mapLookup (mapErase m k) k = none := by
  rw [mapLookup_eq_none]
  intro hk
  rcases List.mem_map.mp hk with ⟨p, hp, hfst⟩
  rcases List.mem_filter.mp hp with ⟨_, hdec⟩
  exact (decide_eq_true_eq.mp hdec) hfst

theorem mapLookup_erase_ne {k' k : String} (m : List (String × Nat))
    (h : k' ≠ k) : mapLookup (mapErase m k) k' = mapLookup m k' := by
  induction m with
  | nil => rfl
  | cons p t ih =>
    rw [mapErase_cons]
    by_cases hp : p.1 = k
    · rw [if_pos hp, ih]
      have h1 : ¬p.1 = k' := by rw [hp]; exact fun e => h e.symm
      simp [mapLookup, h1]
    · rw [if_neg hp]
      by_cases hk' : p.1 = k' <;> simp [mapLookup, hk', ih]

theorem mapErase_eq_self {m : List (String × Nat)} {k : String}
    (h : mapLookup m k = none) : mapErase m k = m := by
  rw [mapLookup_eq_none] at h
  apply List.filter_eq_self.mpr
  intro p hp
  simp only [decide_eq_true_eq]
  intro e
  exact h (List.mem_map.mpr ⟨p, hp, e⟩)

theorem mapLookup_insert_self (m : List (String × Nat)) (k : String)
    (id : Nat) : mapLookup (mapInsert m k id) k = some id := by
  simp [mapInsert, mapLookup]

theorem mapLookup_insert_ne {k' k : String} (m : List (String × Nat))
    (id : Nat) (h : k' ≠ k) :
    mapLookup (mapInsert m k id) k' = mapLookup m k' := by
  have : k ≠ k' := fun e => h e.symm
  simp only [mapInsert, mapLookup, this, if_false]
  exact mapLookup_erase_ne m h

theorem keys_mapErase_nodup {m : List (String × Nat)} {k : String}
    (h : (m.map Prod.fst).Nodup) : ((mapErase m k).map Prod.fst).Nodup :=
  ((List.filter_sublist m).map Prod.fst).nodup h

theorem length_mapErase_of_mem {m : List (String × Nat)} {k : String}
    {id : Nat} (hn : (m.map Prod.fst).Nodup)
    (h : mapLookup m k = some id) :
    (mapErase m k).length + 1 = m.length := by
  induction m with
  | nil => simp [mapLookup] at h
  | cons p t ih =>
    simp only [List.map_cons, List.nodup_cons] at hn
    rw [mapErase_cons]
    by_cases hp : p.1 = k
    · rw [if_pos hp]
      have ht : mapLookup t k = none := by
        rw [mapLookup_eq_none]; exact hp ▸ hn.1
      rw [mapErase_eq_self ht]
      simp
    · rw [if_neg hp]
      simp only [mapLookup, hp, if_false] at h
      have := ih hn.2 h
      simp only [List.length_cons]
      omega

theorem heapVal_cons_self (hp : List (Nat × Entry)) (id : Nat)
    (e : Entry) : heapVal ((id, e) :: hp) id = e := by
  simp [heapVal]

theorem heapVal_cons_ne {j id : Nat} (hp : List (Nat × Entry)) (e : Entry)
    (h : j ≠ id) : heapVal ((id, e) :: hp) j = heapVal hp j := by
  have : id ≠ j := fun e' => h e'.symm
  simp [heapVal, this]

theorem heapVal_setVal_key (h : List (Nat × Entry)) (id : Nat) (v : String)
    (j : Nat) : (heapVal (heapSetVal h id v) j).key = (heapVal h j).key := by
  induction h with
  | nil => rfl
  | cons p t ih =>
    rw [heapSetVal_cons]
    by_cases hid : p.1 = id
    · rw [if_pos hid]
      by_cases hj : p.1 = j <;> simp [heapVal, hj, ih]
    · rw [if_neg hid]
      by_cases hj : p.1 = j <;> simp [heapVal, hj, ih]

theorem mem_moveToFront {l : List Nat} {id j : Nat} :
    j ∈ moveToFront l id ↔ j ∈ l := by
  unfold moveToFront
  by_cases h : id ∈ l
  · by_cases hj : j = id
    · subst hj; simp [h]
    · simp [h, hj, List.mem_erase_of_ne hj]
  · simp [h]

theorem length_moveToFront (l : List Nat) (id : Nat) :
    (moveToFront l id).length = l.length := by
  unfold moveToFront
  by_cases h : id ∈ l
  · have hpos := List.length_pos_of_mem h
    simp only [h, if_true, List.length_cons, List.length_erase_of_mem h]
    omega
  · simp [h]

theorem nodup_moveToFront {l : List Nat} (id : Nat) (d : l.Nodup) :
    (moveToFront l id).Nodup := by
  unfold moveToFront
  by_cases h : id ∈ l
  · simp only [h, if_true, List.nodup_cons]
    exact ⟨d.not_mem_erase, d.erase id⟩
  · simpa [h] using d

theorem mapLookup_erase_none {m : List (String × Nat)} {k : String}
    (h : mapLookup m k = none) (k0 : String) :
    mapLookup (mapErase m k0) k = none := by
  by_cases e : k = k0
  · subst e; exact mapLookup_erase_self m k
  · rw [mapLookup_erase_ne m e]; exact h

/-! ### The structural invariant of a partition

`WF` is the mutual-consistency invariant of the spec's data model — the
map and the recency list hold exactly the same elements, and a key's map
binding and its list element carry the same entry — strengthened with
the bookkeeping facts (no duplicate list elements or map keys, allocator
freshness, equal sizes) needed to push it through the operations. -/

structure WF (c : LRUCache) : Prop where
  lruNodup : c.lru.Nodup
  keysNodup : (c.cache.map Prod.fst).Nodup
  lruLt : ∀ id ∈ c.lru, id < c.nextId
  mapToLru : ∀ k id, mapLookup c.cache k = some id →
      id ∈ c.lru ∧ (heapVal c.heap id).key = k
  lruToMap : ∀ id ∈ c.lru, mapLookup c.cache (heapVal c.heap id).key = some id
  sizeEq : c.cache.length = c.lru.length

theorem wf_new (cap : Int) : WF (NewLRUCache cap) := by
  refine ⟨List.nodup_nil, List.nodup_nil, ?_, ?_, ?_, rfl⟩
  · intro j hj; simp [NewLRUCache] at hj
  · intro k id hl; simp [NewLRUCache, mapLookup] at hl
  · intro j hj; simp [NewLRUCache] at hj

theorem wf_get (c : LRUCache) (k : String) (h : WF c) : WF (c.Get k).2 := by
  unfold LRUCache.Get
  cases hl : mapLookup c.cache k with
  | none => exact ⟨h.lruNodup, h.keysNodup, h.lruLt, h.mapToLru, h.lruToMap,
      h.sizeEq⟩
  | some id =>
    refine ⟨nodup_moveToFront id h.lruNodup, h.keysNodup, ?_, ?_, ?_, ?_⟩
    · intro j hj; exact h.lruLt j (mem_moveToFront.mp hj)
    · intro k' id' hl'
      obtain ⟨hm, hk⟩ := h.mapToLru k' id' hl'
      exact ⟨mem_moveToFront.mpr hm, hk⟩
    · intro j hj; exact h.lruToMap j (mem_moveToFront.mp hj)
    · rw [h.sizeEq, length_moveToFront]

/-- Removing a list element together with its map binding (the shared
shape of `Delete` and of `Put`'s eviction step) preserves `WF`. -/
theorem wf_remove (c : LRUCache) (id : Nat) (h : WF c) (hmem : id ∈ c.lru) :
    WF { c with lru := c.lru.erase id,
                cache := mapErase c.cache (heapVal c.heap id).key } := by
  have hlk : mapLookup c.cache (heapVal c.heap id).key = some id :=
    h.lruToMap id hmem
  refine ⟨h.lruNodup.erase id, keys_mapErase_nodup h.keysNodup, ?_, ?_, ?_, ?_⟩
  · intro j hj
    exact h.lruLt j (List.erase_subset _ _ hj)
  · intro k' id' hl'
    by_cases e : k' = (heapVal c.heap id).key
    · rw [e, mapLookup_erase_self] at hl'
      simp at hl'
    · rw [mapLookup_erase_ne _ e] at hl'
      obtain ⟨hm, hk⟩ := h.mapToLru k' id' hl'
      have hne : id' ≠ id := by
        intro eq; subst eq; exact e hk.symm
      exact ⟨(List.mem_erase_of_ne hne).mpr hm, hk⟩
  · intro j hj
    have hj' : j ∈ c.lru := List.erase_subset _ _ hj
    have hjne : j ≠ id := ((h.lruNodup.mem_erase_iff).mp hj).1
    have hkey_ne : (heapVal c.heap j).key ≠ (heapVal c.heap id).key := by
      intro e
      have hm := h.lruToMap j hj'
      rw [e, hlk] at hm
      exact hjne (Option.some.inj hm).symm
    rw [mapLookup_erase_ne _ hkey_ne]
    exact h.lruToMap j hj'
  · have h1 := length_mapErase_of_mem h.keysNodup hlk
    have h2 := List.length_erase_of_mem hmem
    have h0 := List.length_pos_of_mem hmem
    have h3 := h.sizeEq
    simp only [h2]
    omega

/-- Pushing a fresh element to the front and binding an unbound key (the
final step of `Put` on a new key) preserves `WF`. -/
theorem wf_insert (c1 : LRUCache) (k v : String) (h : WF c1)
    (hlk : mapLookup c1.cache k = none) :
    WF { c1 with lru := c1.nextId :: c1.lru,
                 heap := (c1.nextId, ⟨k, v⟩) :: c1.heap,
                 cache := mapInsert c1.cache k c1.nextId,
                 nextId := c1.nextId + 1 } := by
  have hkeys : k ∉ c1.cache.map Prod.fst := mapLookup_eq_none.mp hlk
  have hins : mapInsert c1.cache k c1.nextId = (k, c1.nextId) :: c1.cache := by
    unfold mapInsert; rw [mapErase_eq_self hlk]
  have hfresh : c1.nextId ∉ c1.lru := fun hm => lt_irrefl _ (h.lruLt _ hm)
  rw [hins]
  refine ⟨?_, ?_, ?_, ?_, ?_, ?_⟩
  · exact List.nodup_cons.mpr ⟨hfresh, h.lruNodup⟩
  · simp only [List.map_cons]
    exact List.nodup_cons.mpr ⟨hkeys, h.keysNodup⟩
  · intro j hj
    rcases List.mem_cons.mp hj with e | hm
    · exact e ▸ Nat.lt_succ_self _
    · exact Nat.lt_succ_of_lt (h.lruLt j hm)
  · intro k' id' hl'
    by_cases e : k = k'
    · subst e
      simp only [mapLookup, if_true] at hl'
      have hid := Option.some.inj hl'
      subst hid
      exact ⟨List.mem_cons_self _ _, by rw [heapVal_cons_self]⟩
    · simp only [mapLookup, e, if_false] at hl'
      obtain ⟨hm, hk⟩ := h.mapToLru k' id' hl'
      have hid : id' ≠ c1.nextId := Nat.ne_of_lt (h.lruLt id' hm)
      exact ⟨List.mem_cons_of_mem _ hm,
        by rw [heapVal_cons_ne _ _ hid]; exact hk⟩
  · intro j hj
    rcases List.mem_cons.mp hj with e | hm
    · subst e
      rw [heapVal_cons_self]
      simp [mapLookup]
    · have hjne : j ≠ c1.nextId := Nat.ne_of_lt (h.lruLt j hm)
      rw [heapVal_cons_ne _ _ hjne]
      have hkey : (heapVal c1.heap j).key ≠ k := by
        intro e
        have hm' := h.lruToMap j hm
        rw [e, hlk] at hm'
        simp at hm'
      simp only [mapLookup]
      rw [if_neg (fun e => hkey e.symm)]
      exact h.lruToMap j hm
  · simp only [List.length_cons]
    rw [h.sizeEq]

theorem wf_put (c : LRUCache) (k v : String) (h : WF c) : WF (c.Put k v) := by
  unfold LRUCache.Put
  cases hl : mapLookup c.cache k with
  | some id =>
    refine ⟨nodup_moveToFront id h.lruNodup, h.keysNodup, ?_, ?_, ?_, ?_⟩
    · intro j hj; exact h.lruLt j (mem_moveToFront.mp hj)
    · intro k' id' hl'
      obtain ⟨hm, hk⟩ := h.mapToLru k' id' hl'
      exact ⟨mem_moveToFront.mpr hm, by rw [heapVal_setVal_key]; exact hk⟩
    · intro j hj
      rw [heapVal_setVal_key]
      exact h.lruToMap j (mem_moveToFront.mp hj)
    · rw [h.sizeEq, length_moveToFront]
  | none =>
    by_cases hcap : (c.lru.length : Int) ≥ c.capacity
    · rw [if_pos hcap]
      cases hg : c.lru.getLast? with
      | some oldest =>
        exact wf_insert _ k v
          (wf_remove c oldest h (List.mem_of_getLast?_eq_some hg))
          (mapLookup_erase_none hl _)
      | none =>
        exact wf_insert c k v h hl
    · rw [if_neg hcap]
      exact wf_insert c k v h hl

theorem wf_delete (c : LRUCache) (k : String) (h : WF c) :
    WF (c.Delete k) := by
  unfold LRUCache.Delete
  cases hl : mapLookup c.cache k with
  | none => exact h
  | some id =>
    obtain ⟨hmem, hkey⟩ := h.mapToLru k id hl
    have := wf_remove c id h hmem
    rw [hkey] at this
    exact this

theorem wf_applyOp (c : LRUCache) (op : Op) (h : WF c) : WF (applyOp c op) := by
  cases op with
  | put k v => exact wf_put c k v h
  | get k => exact wf_get c k h
  | del k => exact wf_delete c k h

/-! ### Capacity bounds -/

theorem capacity_get (c : LRUCache) (k : String) :
    ((c.Get k).2).capacity = c.capacity := by
  unfold LRUCache.Get
  cases mapLookup c.cache k <;> rfl

theorem capacity_put (c : LRUCache) (k v : String) :
    (c.Put k v).capacity = c.capacity := by
  unfold LRUCache.Put
  cases mapLookup c.cache k with
  | some id => rfl
  | none =>
    by_cases hc : (c.lru.length : Int) ≥ c.capacity
    · rw [if_pos hc]
      cases c.lru.getLast? <;> rfl
    · rw [if_neg hc]

theorem capacity_delete (c : LRUCache) (k : String) :
    (c.Delete k).capacity = c.capacity := by
  unfold LRUCache.Delete
  cases mapLookup c.cache k <;> rfl

theorem capacity_applyOp (c : LRUCache) (op : Op) :
    (applyOp c op).capacity = c.capacity := by
  cases op with
  | put k v => exact capacity_put c k v
  | get k => exact capacity_get c k
  | del k => exact capacity_delete c k

theorem get_lru_length (c : LRUCache) (k : String) :
    ((c.Get k).2).lru.length = c.lru.length := by
  unfold LRUCache.Get
  cases mapLookup c.cache k with
  | some id => exact length_moveToFront c.lru id
  | none => rfl

theorem delete_lru_length_le (c : LRUCache) (k : String) :
    (c.Delete k).lru.length ≤ c.lru.length := by
  unfold LRUCache.Delete
  cases mapLookup c.cache k with
  | some id => exact List.length_erase_le id c.lru
  | none => exact le_refl _

/-- One `Put` keeps the recency list within a positive capacity. -/
theorem put_lru_length_le {c : LRUCache} (k v : String)
    (hcap : 1 ≤ c.capacity) (hlen : (c.lru.length : Int) ≤ c.capacity) :
    ((c.Put k v).lru.length : Int) ≤ c.capacity := by
  unfold LRUCache.Put
  cases mapLookup c.cache k with
  | some id =>
    show ((moveToFront c.lru id).length : Int) ≤ c.capacity
    rw [length_moveToFront]
    exact hlen
  | none =>
    by_cases hc : (c.lru.length : Int) ≥ c.capacity
    · rw [if_pos hc]
      cases hg : c.lru.getLast? with
      | some oldest =>
        have hmem := List.mem_of_getLast?_eq_some hg
        have hpos := List.length_pos_of_mem hmem
        have herase := List.length_erase_of_mem hmem
        simp only [List.length_cons, herase]
        have heq : c.lru.length - 1 + 1 = c.lru.length := by omega
        rw [heq]
        exact hlen
      | none =>
        have hnil : c.lru = [] := List.getLast?_eq_none_iff.mp hg
        simp only [hnil, List.length_cons, List.length_nil]
        exact_mod_cast hcap
    · rw [if_neg hc]
      push_neg at hc
      simp only [List.length_cons]
      push_cast
      omega

/-- One operation keeps the recency list within one entry when the
capacity is non-positive. -/
theorem applyOp_length_le_one {c : LRUCache} (op : Op)
    (hcap : c.capacity ≤ 0) (hlen : c.lru.length ≤ 1) :
    (applyOp c op).lru.length ≤ 1 := by
  cases op with
  | get k => rw [applyOp, get_lru_length]; exact hlen
  | del k => exact le_trans (delete_lru_length_le c k) hlen
  | put k v =>
    show (c.Put k v).lru.length ≤ 1
    unfold LRUCache.Put
    cases mapLookup c.cache k with
    | some id =>
      show (moveToFront c.lru id).length ≤ 1
      rw [length_moveToFront]
      exact hlen
    | none =>
      have hc : (c.lru.length : Int) ≥ c.capacity :=
        le_trans hcap (Int.natCast_nonneg _)
      rw [if_pos hc]
      cases hg : c.lru.getLast? with
      | some oldest =>
        have hmem := List.mem_of_getLast?_eq_some hg
        have hpos := List.length_pos_of_mem hmem
        have herase := List.length_erase_of_mem hmem
        simp only [List.length_cons, herase]
        omega
      | none =>
        have hnil : c.lru = [] := List.getLast?_eq_none_iff.mp hg
        simp [hnil]

/-! ### Lemmas about puts, deletes and the read handler -/

theorem put_counters (c : LRUCache) (k v : String) :
    (c.Put k v).hits = c.hits ∧ (c.Put k v).misses = c.misses := by
  unfold LRUCache.Put
  cases mapLookup c.cache k with
  | some id => exact ⟨rfl, rfl⟩
  | none =>
    by_cases hc : (c.lru.length : Int) ≥ c.capacity
    · rw [if_pos hc]
      cases c.lru.getLast? <;> exact ⟨rfl, rfl⟩
    · rw [if_neg hc]
      exact ⟨rfl, rfl⟩

/-- After `Put` of a key that was absent, the key is bound to the fresh
element, which carries the new entry. -/
theorem put_get_hit (c : LRUCache) (k v : String)
    (h : mapLookup c.cache k = none) :
    mapLookup (c.Put k v).cache k = some c.nextId ∧
    heapVal (c.Put k v).heap c.nextId = ⟨k, v⟩ := by
  unfold LRUCache.Put
  rw [h]
  by_cases hc : (c.lru.length : Int) ≥ c.capacity
  · rw [if_pos hc]
    cases c.lru.getLast? with
    | some oldest =>
      exact ⟨mapLookup_insert_self _ _ _, heapVal_cons_self _ _ _⟩
    | none =>
      exact ⟨mapLookup_insert_self _ _ _, heapVal_cons_self _ _ _⟩
  · rw [if_neg hc]
    exact ⟨mapLookup_insert_self _ _ _, heapVal_cons_self _ _ _⟩

theorem get_after_put_new (c : LRUCache) (k v : String)
    (h : mapLookup c.cache k = none) :
    ((c.Put k v).Get k).1 = (v, true) ∧
    ((c.Put k v).Get k).2.hits = (c.Put k v).hits + 1 ∧
    ((c.Put k v).Get k).2.misses = (c.Put k v).misses := by
  obtain ⟨hlk, hhv⟩ := put_get_hit c k v h
  unfold LRUCache.Get
  rw [hlk]
  refine ⟨?_, rfl, rfl⟩
  show ((heapVal (c.Put k v).heap c.nextId).value, true) = (v, true)
  rw [hhv]

theorem mapLookup_delete_self (c : LRUCache) (k : String) :
    mapLookup (c.Delete k).cache k = none := by
  unfold LRUCache.Delete
  cases hl : mapLookup c.cache k with
  | none => exact hl
  | some id => exact mapLookup_erase_self _ _

theorem handleRead_miss_ok (s : KVServer) (k v : String) (hk : ¬k = "")
    (hmiss : mapLookup s.cache.cache k = none) :
    s.handleRead k (.ok v) =
      (sendSuccess v 200,
        ⟨({ s.cache with misses := s.cache.misses + 1 }).Put k v⟩, true) := by
  unfold KVServer.handleRead
  rw [if_neg hk]
  unfold LRUCache.Get
  rw [hmiss]

theorem handleRead_hit (s : KVServer) (k : String)
    (db : Except DBErr String) {v : String} (hk : ¬k = "")
    (hhit : (s.cache.Get k).1 = (v, true)) :
    s.handleRead k db = (sendSuccess v 200, ⟨(s.cache.Get k).2⟩, false) := by
  unfold KVServer.handleRead
  rw [if_neg hk]
  rcases hG : s.cache.Get k with ⟨⟨vv, found⟩, c2⟩
  rw [hG] at hhit
  have hv : vv = v := (Prod.ext_iff.mp hhit).1
  have hf : found = true := (Prod.ext_iff.mp hhit).2
  subst hv
  subst hf
  rfl

/-! ### Claim theorems -/

/-- C1: for every capacity `C ≥ 1` and every finite sequence of `put`
operations applied to a freshly constructed partition of capacity `C`,
after each put the number of entries held — the size of the
key-to-element mapping, equivalently the length of the recency list —
is at most `C`.  (Quantifying over all sequences covers every prefix,
hence the state after each individual put.) -/
theorem put_sequence_capacity_invariant (C : Int) (hC : 1 ≤ C)
    (ops : List (String × String)) :
    ((applyPuts (NewLRUCache C) ops).cache.length : Int) ≤ C ∧
    ((applyPuts (NewLRUCache C) ops).lru.length : Int) ≤ C := by
  suffices h : ∀ c : LRUCache, WF c → c.capacity = C →
      (c.lru.length : Int) ≤ C →
      WF (applyPuts c ops) ∧ (applyPuts c ops).capacity = C ∧
        ((applyPuts c ops).lru.length : Int) ≤ C by
    obtain ⟨hwf, _, hlen⟩ :=
      h (NewLRUCache C) (wf_new C) rfl (by simp [NewLRUCache]; omega)
    refine ⟨?_, hlen⟩
    rw [hwf.sizeEq]
    exact hlen
  induction ops with
  | nil => intro c h1 h2 h3; exact ⟨h1, h2, h3⟩
  | cons p t ih =>
    intro c h1 h2 h3
    have hc1 : 1 ≤ c.capacity := by rw [h2]; exact hC
    have hl1 : (c.lru.length : Int) ≤ c.capacity := by rw [h2]; exact h3
    have h3' := put_lru_length_le p.1 p.2 hc1 hl1
    rw [h2] at h3'
    exact ih (c.Put p.1 p.2) (wf_put c p.1 p.2 h1)
      ((capacity_put c p.1 p.2).trans h2) h3'

/-- Witness for C1 at capacity 1 with two puts. -/
theorem put_sequence_capacity_invariant_witness :
    (1 : Int) ≤ 1 ∧
      (((applyPuts (NewLRUCache 1) [("a", "1"), ("b", "2")]).cache.length :
          Int) ≤ 1 ∧
       ((applyPuts (NewLRUCache 1) [("a", "1"), ("b", "2")]).lru.length :
          Int) ≤ 1) :=
  ⟨le_refl 1,
    put_sequence_capacity_invariant 1 (le_refl 1) [("a", "1"), ("b", "2")]⟩

/-- C2: on a single partition of capacity 2, starting empty, the
sequence `put(a,1)`, `put(b,2)`, `get(a)`, `put(c,3)` leaves exactly
`{a:1, c:3}` with `b` evicted: `get(a)` returns `(1, true)`, `get(c)`
returns `(3, true)`, `get(b)` reports not found, `b` is unbound in the
map and exactly two entries remain. -/
theorem scenario_cap2_lru_eviction :
    (scenarioState.Get "a").1 = ("1", true) ∧
    (scenarioState.Get "c").1 = ("3", true) ∧
    (scenarioState.Get "b").1.2 = false ∧
    mapLookup scenarioState.cache "b" = none ∧
    scenarioState.lru.length = 2 := by
  decide

/-- C3: each partition operation (`get`, `put`, `delete`) preserves the
mutual consistency of the lookup map and the recency list (`WF`): every
key in the map points to an element of the list carrying that same key,
every element of the list is bound in the map under its entry's key to
that same element, and the two structures have equal size. -/
theorem ops_preserve_map_list_consistency (c : LRUCache) (k v : String)
    (h : WF c) : WF ((c.Get k).2) ∧ WF (c.Put k v) ∧ WF (c.Delete k) :=
  ⟨wf_get c k h, wf_put c k v h, wf_delete c k h⟩

/-- Witness for C3 on a freshly built partition. -/
theorem ops_preserve_map_list_consistency_witness :
    WF (NewLRUCache 2) ∧
      (WF (((NewLRUCache 2).Get "a").2) ∧ WF ((NewLRUCache 2).Put "a" "1") ∧
        WF ((NewLRUCache 2).Delete "a")) :=
  ⟨wf_new 2,
    ops_preserve_map_list_consistency (NewLRUCache 2) "a" "1" (wf_new 2)⟩

/-- C10: a partition constructed with capacity `≤ 0` still executes every
operation (all operations are total functions of the embedding, and the
eviction branch skips removal when the recency list is empty), and after
every sequence of put/get/delete operations it holds at most one
entry. -/
theorem nonpositive_capacity_total_and_bounded (C : Int) (hC : C ≤ 0)
    (ops : List Op) :
    (applyOps (NewLRUCache C) ops).lru.length ≤ 1 ∧
    (applyOps (NewLRUCache C) ops).cache.length ≤ 1 := by
  suffices h : ∀ c : LRUCache, WF c → c.capacity = C → c.lru.length ≤ 1 →
      WF (applyOps c ops) ∧ (applyOps c ops).capacity = C ∧
        (applyOps c ops).lru.length ≤ 1 by
    obtain ⟨hwf, _, hlen⟩ :=
      h (NewLRUCache C) (wf_new C) rfl (by simp [NewLRUCache])
    exact ⟨hlen, by rw [hwf.sizeEq]; exact hlen⟩
  induction ops with
  | nil => intro c h1 h2 h3; exact ⟨h1, h2, h3⟩
  | cons op t ih =>
    intro c h1 h2 h3
    exact ih (applyOp c op) (wf_applyOp c op h1)
      ((capacity_applyOp c op).trans h2)
      (applyOp_length_le_one op (by rw [h2]; exact hC) h3)

/-- Witness for C10 at capacity 0 with a mixed operation sequence. -/
theorem nonpositive_capacity_total_and_bounded_witness :
    (0 : Int) ≤ 0 ∧
      ((applyOps (NewLRUCache 0)
          [.put "a" "1", .put "b" "2", .get "a", .del "b"]).lru.length ≤ 1 ∧
       (applyOps (NewLRUCache 0)
          [.put "a" "1", .put "b" "2", .get "a", .del "b"]).cache.length ≤ 1) :=
  ⟨le_refl 0,
    nonpositive_capacity_total_and_bounded 0 (le_refl 0)
      [.put "a" "1", .put "b" "2", .get "a", .del "b"]⟩

/-- C4: when the store create fails, `handleCreate` reports the store
error (`database error`, 500) and returns the server state unchanged —
in particular any cached value for the key is exactly as before and the
new value was not inserted. -/
theorem create_store_failure_leaves_cache (s : KVServer) (k v : String)
    (e : DBErr) (hk : ¬k = "") :
    s.handleCreate k v (.error e) = (sendError "database error" 500, s) ∧
    ((s.handleCreate k v (.error e)).2).cache.Get k = s.cache.Get k := by
  have h : s.handleCreate k v (.error e) =
      (sendError "database error" 500, s) := by
    unfold KVServer.handleCreate
    rw [if_neg hk]
  exact ⟨h, by rw [h]⟩

/-- Witness for C4: a pre-populated cache survives a failing create. -/
theorem create_store_failure_leaves_cache_witness :
    ¬("x" : String) = "" ∧
      (KVServer.handleCreate ⟨(NewLRUCache 2).Put "x" "old"⟩ "x" "new"
          (.error (.failure "db down")) =
        (sendError "database error" 500, ⟨(NewLRUCache 2).Put "x" "old"⟩) ∧
      ((KVServer.handleCreate ⟨(NewLRUCache 2).Put "x" "old"⟩ "x" "new"
          (.error (.failure "db down"))).2).cache.Get "x" =
        ((NewLRUCache 2).Put "x" "old").Get "x") :=
  ⟨by decide,
    create_store_failure_leaves_cache ⟨(NewLRUCache 2).Put "x" "old"⟩
      "x" "new" (.failure "db down") (by decide)⟩

/-- C5 counterexample: at requested total capacity 33 the code gives
every one of the 32 shards capacity 1, while the claimed ceiling
division `⌈33/32⌉ = 2`; the claim as stated is false. -/
theorem shard_capacity_not_ceiling :
    (∀ s ∈ (NewShardedCache 33).shards, s.capacity = 1) ∧
    specCeilShardCap 33 = 2 ∧ (1 : Int) ≠ 2 := by
  refine ⟨by decide, ?_, by decide⟩
  unfold specCeilShardCap
  have h : ⌈((33 : Int) : ℚ) / ((SHARD_COUNT : Nat) : ℚ)⌉ = 2 := by
    rw [Int.ceil_eq_iff]
    norm_num [SHARD_COUNT]
  rw [h]
  norm_num

/-- C5 amended: the sharded cache is constructed with exactly
`SHARD_COUNT = 32` partitions, each with per-shard capacity given by
truncating (floor, for non-negative totals) division of the requested
total by the shard count, clamped below at 1 — not ceiling division. -/
theorem shard_construction_floor_capacity (T : Int) :
    (NewShardedCache T).shards.length = SHARD_COUNT ∧
    ∀ s ∈ (NewShardedCache T).shards,
      s.capacity = max 1 (T.tdiv (SHARD_COUNT : Int)) := by
  constructor
  · simp [NewShardedCache]
  · intro s hs
    simp only [NewShardedCache] at hs
    rw [List.eq_of_mem_replicate hs]
    show (if T.tdiv (SHARD_COUNT : Int) < 1 then 1
          else T.tdiv (SHARD_COUNT : Int)) = max 1 (T.tdiv (SHARD_COUNT : Int))
    by_cases h : T.tdiv (SHARD_COUNT : Int) < 1
    · rw [if_pos h]
      exact (max_eq_left h.le).symm
    · rw [if_neg h]
      push_neg at h
      exact (max_eq_right h).symm

/-- C6 counterexample: the store layer does distinguish absence from
failure, yet on a cache miss the read handler reports a pure store
failure (a failed query, not a missing key) with exactly the NotFound
response `key not found`/404 — the same response a missing key gets —
so a store failure on read is reported to the caller as NotFound. -/
theorem read_store_failure_reported_not_found :
    pgRead (.queryFailure "connection refused") =
      .error (.failure "connection refused") ∧
    (KVServer.handleRead (NewKVServer 2) "k"
        (pgRead (.queryFailure "connection refused"))).1 =
      sendError "key not found" 404 ∧
    (KVServer.handleRead (NewKVServer 2) "k" (pgRead .noRows)).1 =
      sendError "key not found" 404 := by
  refine ⟨rfl, ?_, ?_⟩ <;> decide

/-- C6 amended: `PostgresDB.Read` distinguishes the two failure kinds
(no rows becomes the `key not found` error, any other query failure is
propagated unchanged), but `handleRead` collapses them: on a cache miss
it reports every store read error, absence and store failure alike, as
`key not found` with status 404. -/
theorem read_error_collapsed_to_not_found (s : KVServer) (k : String)
    (e : DBErr) (hk : ¬k = "") (hmiss : mapLookup s.cache.cache k = none) :
    (s.handleRead k (.error e)).1 = sendError "key not found" 404 ∧
    pgRead .noRows = .error .notFound ∧
    (∀ m, pgRead (.queryFailure m) = .error (.failure m)) := by
  refine ⟨?_, rfl, fun m => rfl⟩
  unfold KVServer.handleRead
  rw [if_neg hk]
  unfold LRUCache.Get
  rw [hmiss]

/-- Witness for the amended C6 on an empty cache and a store failure. -/
theorem read_error_collapsed_to_not_found_witness :
    (¬("k" : String) = "" ∧
      mapLookup (NewKVServer 2).cache.cache "k" = none) ∧
    ((KVServer.handleRead (NewKVServer 2) "k"
        (.error (.failure "down"))).1 = sendError "key not found" 404 ∧
      pgRead .noRows = .error .notFound ∧
      (∀ m, pgRead (.queryFailure m) = .error (.failure m))) :=
  ⟨⟨by decide, rfl⟩,
    read_error_collapsed_to_not_found (NewKVServer 2) "k"
      (.failure "down") (by decide) rfl⟩

/-- C7: on store-delete success the key is deleted from the cache
(whether or not it was cached), so an immediately following cache read
of it misses; when the store reports the key absent the handler returns
the NotFound report and the server state is completely unchanged. -/
theorem delete_invalidates_cache_or_leaves_it (s : KVServer) (k : String)
    (hk : ¬k = "") :
    (s.handleDelete k (.ok ()) =
        (sendSuccess "" 200, ⟨s.cache.Delete k⟩) ∧
      (((s.cache.Delete k).Get k).1).2 = false) ∧
    s.handleDelete k (.error .notFound) =
      (sendError "key not found" 404, s) := by
  refine ⟨⟨?_, ?_⟩, ?_⟩
  · unfold KVServer.handleDelete
    rw [if_neg hk]
  · unfold LRUCache.Get
    rw [mapLookup_delete_self]
  · unfold KVServer.handleDelete
    rw [if_neg hk]

/-- Witness for C7 with a cached key. -/
theorem delete_invalidates_cache_or_leaves_it_witness :
    ¬("x" : String) = "" ∧
      ((KVServer.handleDelete ⟨(NewLRUCache 2).Put "x" "1"⟩ "x" (.ok ()) =
          (sendSuccess "" 200, ⟨((NewLRUCache 2).Put "x" "1").Delete "x"⟩) ∧
        ((((NewLRUCache 2).Put "x" "1").Delete "x").Get "x").1.2 = false) ∧
      KVServer.handleDelete ⟨(NewLRUCache 2).Put "x" "1"⟩ "x"
          (.error .notFound) =
        (sendError "key not found" 404, ⟨(NewLRUCache 2).Put "x" "1"⟩)) :=
  ⟨by decide,
    delete_invalidates_cache_or_leaves_it ⟨(NewLRUCache 2).Put "x" "1"⟩
      "x" (by decide)⟩

/-- C8: read-through population.  On a key absent from the cache but
present in the store, the first read returns the store's value, consults
the store, bumps the miss counter by exactly one and leaves the hit
counter alone; the immediately following read of the same key is served
as a cache hit with the same value, does not consult the store
(whatever the store would answer), bumps the hit counter by exactly one
and leaves the miss counter alone. -/
theorem read_through_population (s : KVServer) (k v : String)
    (dbSecond : Except DBErr String) (hk : ¬k = "")
    (hmiss : mapLookup s.cache.cache k = none) :
    (s.handleRead k (.ok v)).1 = sendSuccess v 200 ∧
    (s.handleRead k (.ok v)).2.2 = true ∧
    (s.handleRead k (.ok v)).2.1.cache.misses = s.cache.misses + 1 ∧
    (s.handleRead k (.ok v)).2.1.cache.hits = s.cache.hits ∧
    ((s.handleRead k (.ok v)).2.1.handleRead k dbSecond).1 =
      sendSuccess v 200 ∧
    ((s.handleRead k (.ok v)).2.1.handleRead k dbSecond).2.2 = false ∧
    ((s.handleRead k (.ok v)).2.1.handleRead k dbSecond).2.1.cache.hits =
      (s.handleRead k (.ok v)).2.1.cache.hits + 1 ∧
    ((s.handleRead k (.ok v)).2.1.handleRead k dbSecond).2.1.cache.misses =
      (s.handleRead k (.ok v)).2.1.cache.misses := by
  have h1 := handleRead_miss_ok s k v hk hmiss
  have hm1 : mapLookup
      ({ s.cache with misses := s.cache.misses + 1 } : LRUCache).cache k =
      none := hmiss
  have hget := get_after_put_new
    { s.cache with misses := s.cache.misses + 1 } k v hm1
  have h2 := handleRead_hit
    ⟨({ s.cache with misses := s.cache.misses + 1 } : LRUCache).Put k v⟩
    k dbSecond hk hget.1
  rw [h1]
  refine ⟨rfl, rfl, ?_, ?_, ?_, ?_, ?_, ?_⟩
  · exact (put_counters _ k v).2
  · exact (put_counters _ k v).1
  · rw [h2]
  · rw [h2]
  · rw [h2]
    exact hget.2.1
  · rw [h2]
    exact hget.2.2

/-- Witness for C8 on an empty cache. -/
theorem read_through_population_witness :
    (¬("k" : String) = "" ∧
      mapLookup (NewKVServer 2).cache.cache "k" = none) ∧
    ((KVServer.handleRead (NewKVServer 2) "k" (.ok "val")).1 =
        sendSuccess "val" 200 ∧
      (KVServer.handleRead (NewKVServer 2) "k" (.ok "val")).2.2 = true ∧
      (KVServer.handleRead (NewKVServer 2) "k"
          (.ok "val")).2.1.cache.misses = (NewKVServer 2).cache.misses + 1 ∧
      (KVServer.handleRead (NewKVServer 2) "k"
          (.ok "val")).2.1.cache.hits = (NewKVServer 2).cache.hits ∧
      ((KVServer.handleRead (NewKVServer 2) "k"
          (.ok "val")).2.1.handleRead "k" (.error .notFound)).1 =
        sendSuccess "val" 200 ∧
      ((KVServer.handleRead (NewKVServer 2) "k"
          (.ok "val")).2.1.handleRead "k" (.error .notFound)).2.2 = false ∧
      ((KVServer.handleRead (NewKVServer 2) "k"
          (.ok "val")).2.1.handleRead "k"
          (.error .notFound)).2.1.cache.hits =
        (KVServer.handleRead (NewKVServer 2) "k"
          (.ok "val")).2.1.cache.hits + 1 ∧
      ((KVServer.handleRead (NewKVServer 2) "k"
          (.ok "val")).2.1.handleRead "k"
          (.error .notFound)).2.1.cache.misses =
        (KVServer.handleRead (NewKVServer 2) "k"
          (.ok "val")).2.1.cache.misses) :=
  ⟨⟨by decide, rfl⟩,
    read_through_population (NewKVServer 2) "k" "val" (.error .notFound)
      (by decide) rfl⟩

/-- C9: the router's bitwise-and reduction agrees with the modulo
reduction for every key — `hash(k) & (SHARD_COUNT - 1)` equals
`hash(k) mod SHARD_COUNT` since `SHARD_COUNT = 32` is a power of two —
and shard resolution of a fixed key is deterministic, always yielding
the same partition index. -/
theorem shard_bitand_eq_mod (key : String) :
    getShardIndex key = hash key % SHARD_COUNT ∧
    getShardIndex key = getShardIndex key := by
  refine ⟨?_, rfl⟩
  show hash key &&& (SHARD_COUNT - 1) = hash key % SHARD_COUNT
  have h32 : SHARD_COUNT = 2 ^ 5 := rfl
  rw [h32]
  exact Nat.and_pow_two_sub_one_eq_mod (hash key) 5

end KV
